import Mathlib

set_option maxRecDepth 4000

/-!
Verification development for the cargo-cult SSH terminal application.

The definitions below are a shallow embedding of the Rust sources:

* tui/terminal.rs   : the input decoder turning raw byte chunks into events
  (channel_data_to_terminal_codes);
* tui/app.rs        : the asynchronous output writer, the fixed-width wrap,
  the line prompt and the scrollable single-select loops, and the
  docker_session relay wrapper;
* tui/ssh_server.rs : the TerminalHandle sink that buffers writes and
  delivers them to the SSH channel on flush.

Rust u8 bytes are modelled as Nat, Rust String as List Char (one element per
character; byte length and character length agree on the ASCII data these
functions compare against widths), usize arithmetic as Nat with wrap-around
made explicit where the source can underflow.
-/

/-- Input events, from the AsciiCode enum in the source. An event with
ascii_code = none is the Unrecognized event of the specification. -/
inductive AsciiCode where
  | ArrowUp
  | ArrowDown
  | Backspace
  | Enter
  | EoT
  | Char (c : Nat)
deriving DecidableEq

/-- A decoded unit: the optional event plus the exact raw byte span that
produced it, as in the TerminalCode struct of the source. -/
structure TerminalCode where
  ascii_code : Option AsciiCode
  raw_bytes : List Nat
deriving DecidableEq

/-- Mapping of a fully consumed CSI parameter string to an event, from the
match on command.as_slice() in channel_data_to_terminal_codes: exactly [65]
gives ArrowUp, exactly [66] gives ArrowDown, anything else is Unrecognized. -/
def csiMap (command : List Nat) : Option AsciiCode :=
  if command = [65] then some AsciiCode.ArrowUp
  else if command = [66] then some AsciiCode.ArrowDown
  else none

/-- Decoding of one byte outside an escape sequence, from the non-escape arms
of the match in channel_data_to_terminal_codes: 127 and 8 give Backspace,
3 gives EoT, 13 gives Enter, every other byte in 0..=31 is dropped (no
event), and any remaining byte is a printable Char event. -/
def decode_byte (b : Nat) : List TerminalCode :=
  if b = 127 then [⟨some AsciiCode.Backspace, [127]⟩]
  else if b ≤ 31 then
    if b = 3 then [⟨some AsciiCode.EoT, [3]⟩]
    else if b = 8 then [⟨some AsciiCode.Backspace, [8]⟩]
    else if b = 13 then [⟨some AsciiCode.Enter, [13]⟩]
    else []
  else [⟨some (AsciiCode.Char b), [b]⟩]

/-- The decoder loop of channel_data_to_terminal_codes. The second argument
is none outside an escape sequence; it is some acc while the loop is
consuming a CSI sequence started by bytes 27, 91, with acc the parameter
bytes consumed so far (the inner while loop of the source consumes ASCII
bytes, then one further byte if any remains). -/
def decodeAux : List Nat → Option (List Nat) → List TerminalCode
  | [], some acc => [⟨csiMap acc, 27 :: 91 :: acc⟩]
  | b :: rest, some acc =>
      if b < 128 then decodeAux rest (some (acc ++ [b]))
      else ⟨csiMap (acc ++ [b]), 27 :: 91 :: (acc ++ [b])⟩ :: decodeAux rest none
  | [], none => []
  | 27 :: 91 :: rest, none => decodeAux rest (some [])
  | b :: rest, none => decode_byte b ++ decodeAux rest none

/-- The decoder: raw byte chunk to ordered event list, as in the source
function of the same name. -/
def channel_data_to_terminal_codes (data : List Nat) : List TerminalCode :=
  decodeAux data none

/-- Specification-side description of the bytes a CSI sequence consumes after
the 27, 91 prefix: all leading ASCII bytes, then the first non-ASCII byte if
one remains in the chunk. -/
def csiTake (l : List Nat) : List Nat :=
  l.takeWhile (fun b => b < 128) ++ (l.dropWhile (fun b => b < 128)).take 1

/-- Specification-side description of the bytes left over after a CSI
sequence has consumed its parameter string. -/
def csiRest (l : List Nat) : List Nat :=
  (l.dropWhile (fun b => b < 128)).drop 1

/-- A chunk contains no bare ESC [ pair: no byte 27 immediately followed by
byte 91. -/
def noCsi : List Nat → Bool
  | [] => true
  | b :: rest => !(b == 27 && rest.head? == some 91) && noCsi rest

/-! ## Output multiplexer

AsyncWriter (app.rs) submits TerminalHandleMsg commands over an unbounded
FIFO channel; a single background task drains them in order, applying each
to the owned sink. The sink for an SSH session is TerminalHandle
(ssh_server.rs): write appends to an internal buffer, flush delivers the
whole buffer to the transport with one handle.data call and clears it.
The transport is modelled as the list of delivered buffers. -/

/-- Commands accepted by the output multiplexer, from the TerminalHandleMsg
enum of the source. -/
inductive TerminalHandleMsg where
  | Flush
  | Data (c : List Nat)

/-- The SSH session sink, from TerminalHandle in ssh_server.rs: an internal
buffer plus the transport, modelled as the ordered list of buffers the
transport has received (one entry per handle.data call). -/
structure TerminalHandle where
  sink : List Nat
  delivered : List (List Nat)
deriving DecidableEq

/-- TerminalHandle::write: append the bytes to the internal sink buffer;
nothing reaches the transport. -/
def TerminalHandle.write (h : TerminalHandle) (buf : List Nat) : TerminalHandle :=
  { h with sink := h.sink ++ buf }

/-- TerminalHandle::flush: deliver the whole accumulated sink buffer to the
transport as one handle.data call, then clear the sink. -/
def TerminalHandle.flush (h : TerminalHandle) : TerminalHandle :=
  { sink := [], delivered := h.delivered ++ [h.sink] }

/-- AsyncWriter::worker: drain the command queue strictly in submission
order, applying Data as a sink write and Flush as a sink flush. -/
def AsyncWriter.worker (msgs : List TerminalHandleMsg) (out : TerminalHandle) :
    TerminalHandle :=
  msgs.foldl
    (fun out msg =>
      match msg with
      | TerminalHandleMsg.Data c => out.write c
      | TerminalHandleMsg.Flush => out.flush)
    out

/-! ## Renderer: fixed-width word wrap (app.rs, fixed_width)

Rust strings are modelled as lists of characters. A wrapped line is kept as
the list of the words pushed onto it; renderLine is the string the source
accumulates for that line, each word followed by the one space the source
appends with push_str(word + " "). -/

/-- The characters of a string literal, for concrete test inputs. -/
def strChars (s : String) : List Char := s.data

/-- Splitting a character list at every "\r\n" occurrence, as Rust's
str::split("\r\n") does: n separators yield n + 1 pieces. -/
def splitCRLF : List Char → List (List Char)
  | [] => [[]]
  | '\r' :: '\n' :: rest => [] :: splitCRLF rest
  | c :: rest =>
      match splitCRLF rest with
      | [] => [[c]]
      | piece :: pieces => (c :: piece) :: pieces

/-- The string contents of one wrapped line: every word on it followed by
one space, exactly as fixed_width accumulates it. -/
def renderLine (ws : List (List Char)) : List Char :=
  (ws.map (fun w => w ++ [' '])).flatten

/-- One step of the word loop in fixed_width: if the current line's length
plus the word's length exceeds the width, close the current line and start a
new one; then push the word (and its trailing space) onto the current
line. -/
def wrapStep (width : Nat) (acc : List (List (List Char)) × List (List Char))
    (w : List Char) : List (List (List Char)) × List (List Char) :=
  if (renderLine acc.2).length + w.length > width then (acc.1 ++ [acc.2], [w])
  else (acc.1, acc.2 ++ [w])

/-- The word loop of fixed_width over one source line, returning all wrapped
lines (the source's result vector, last line included). -/
def wrapWords (width : Nat) (words : List (List Char)) : List (List (List Char)) :=
  let r := words.foldl (wrapStep width) ([], [])
  r.1 ++ [r.2]

/-- fixed_width from app.rs: split the input at "\r\n", word-wrap every line
greedily at the given width (splitting lines at single spaces into words),
append "\r\n" after every wrapped line, and concatenate everything. -/
def fixed_width (input : List Char) (width : Nat) : List Char :=
  ((splitCRLF input).map (fun line =>
    ((wrapWords width (line.splitOn ' ')).map
      (fun ws => renderLine ws ++ ['\r', '\n'])).flatten)).flatten

/-- A wrapped line of the fixed-width wrap is acceptable when its string
contents fit in width plus the one trailing space, or when it consists of a
single word that is itself longer than the width. -/
def wrapLineOk (width : Nat) (l : List (List Char)) : Prop :=
  (renderLine l).length ≤ width + 1 ∨ ∃ w, l = [w] ∧ width < w.length

/-! ## Scrollable single-select (app.rs, single_select) -/

/-- The size of the usize value space: lengths and indices in the source are
64-bit unsigned integers. -/
def USIZE : Nat := 2 ^ 64

/-- Unsigned 64-bit subtraction as it behaves in a release build: the
mathematical difference reduced modulo 2^64 (wrap-around on underflow),
written by cases so that it reduces well; usize_sub_mod below checks it
against the modulo form. -/
def usize_sub (a b : Nat) : Nat := if b ≤ a then a - b else USIZE - (b - a)

/-- The subtraction a - b underflows on usize exactly when a < b (a debug
build panics there; a release build wraps around). -/
def usize_sub_underflows (a b : Nat) : Bool := a < b

/-- Line count of one option as single_select computes it: the number of
pieces the option's display string splits into at "\r\n". -/
def option_line_count (o : List Char) : Nat := (splitCRLF o).length

/-- Total line count as computed at the top of single_select: the sum over
the options of each option's line count, plus one. -/
def single_select_total_lines (options : List (List Char)) : Nat :=
  (options.map (fun o => (splitCRLF o).length)).sum + 1

/-- Viewport height (box_rows in the source): the minimum of the total line
count and the terminal row height. -/
def single_select_box_rows (options : List (List Char)) (row_height : Nat) : Nat :=
  min (single_select_total_lines options) row_height

/-- The input handling loop of single_select over a finite list of received
events, starting from the given selected index. n is options.len(). Enter
breaks and the function returns the index; EoT tears the session down (no
value is ever returned, modelled as none); ArrowUp moves up with
saturating_sub; ArrowDown moves down when index < options.len() - 1, the
subtraction being usize subtraction; every other event only re-renders. An
exhausted event list models a closed input channel, on which the while-let
loop ends and the current index is returned. -/
def single_select_loop (n : Nat) : Nat → List (Option AsciiCode) → Option Nat
  | index, [] => some index
  | index, e :: rest =>
      match e with
      | some AsciiCode.Enter => some index
      | some AsciiCode.ArrowUp => single_select_loop n (index - 1) rest
      | some AsciiCode.ArrowDown =>
          single_select_loop n (if index < usize_sub n 1 then index + 1 else index) rest
      | some AsciiCode.EoT => none
      | some _ => single_select_loop n index rest
      | none => single_select_loop n index rest

/-- The gallery looks the returned index up in the fetched submissions list
(responses.get(result) in the source; the subsequent .expect panics when
this lookup misses). -/
def gallery_lookup {α : Type} (responses : List α) (i : Nat) : Option α :=
  responses.get? i

/-! ## Line prompt (app.rs, prompt)

The prompt owns the entered text (a List Char models the Rust String) and
reads events until a submission succeeds. The nested loops of the source
flatten into one recursion over the received events: Enter returns the text
unless the prompt is required and the text is empty, in which case the loop
re-renders the required-field notice and keeps reading; Backspace pops the
last character; a Char byte is appended when str::from_utf8 accepts the one
byte slice, which holds exactly for bytes below 128, and is silently ignored
otherwise; EoT tears the session down (no value returned); every other
event only re-renders. An exhausted event list is a bounded event budget:
none means no return value was produced within it. -/

/-- The event loop of prompt over a finite event budget. -/
def prompt_loop (required : Bool) : List Char → List (Option AsciiCode) → Option (List Char)
  | _, [] => none
  | input, e :: rest =>
      match e with
      | some AsciiCode.Enter =>
          if required && input.isEmpty then prompt_loop required input rest
          else some input
      | some AsciiCode.Backspace => prompt_loop required input.dropLast rest
      | some (AsciiCode.Char c) =>
          prompt_loop required
            (if c < 128 then input ++ [Char.ofNat c] else input) rest
      | some AsciiCode.EoT => none
      | some _ => prompt_loop required input rest
      | none => prompt_loop required input rest

/-! ## Session relay (app.rs, docker_session)

The gallery opens the relay through docker_session, which wraps the whole
SSHForwardingSession::call in tokio::time::timeout with a fixed budget of
60 * 30 seconds, binds the outcome to the wildcard pattern, and returns
normally whatever that outcome was. Wall-clock time is modelled by the
elapsed duration of the call. -/

/-- The timeout budget of the relay, in seconds, from
Duration::from_secs(60 * 30) in docker_session. -/
def docker_session_timeout : Nat := 60 * 30

/-- tokio::time::timeout: the wrapped result when the call finishes within
the budget, none when the budget elapses first. -/
def timeout_run {α : Type} (budget : Nat) (elapsed : Nat) (result : α) : Option α :=
  if elapsed ≤ budget then some result else none

/-- docker_session's handling of the relay call: the timeout outcome is
bound to the wildcard pattern and discarded, and control returns normally to
the caller in every case; a timeout is not propagated as an error. The call
itself finishes with an exit status or an error, modelled by Except. -/
def docker_session (elapsed : Nat) (call_result : Except String Nat) : Except String Unit :=
  let _ := timeout_run docker_session_timeout elapsed call_result
  Except.ok ()

/-! ## Helper lemmas about the decoder -/

/-- Outside an escape sequence, a head byte that does not start a bare
ESC [ pair is decoded on its own and the loop continues with the rest of
the chunk. -/
theorem decodeAux_cons_of_not_csi (b : Nat) (rest : List Nat)
    (h : ¬(b = 27 ∧ rest.head? = some 91)) :
    decodeAux (b :: rest) none = decode_byte b ++ decodeAux rest none := by
  by_cases hb : b = 27
  · subst hb
    rcases rest with _ | ⟨r, rest⟩
    · rfl
    · by_cases hr : r = 91
      · exact absurd ⟨rfl, by simp [hr]⟩ h
      · rw [decodeAux.eq_def]
        split
        · simp_all
        · simp_all
        · simp_all
        · simp_all
        · rename_i x2 x1 b2 rest2 hno heq1 heq2
          injection heq1 with e1 e2
          subst e1; subst e2
          rfl
  · rcases rest with _ | ⟨r, rest⟩
    · rw [decodeAux.eq_def]
      split
      · simp_all
      · simp_all
      · simp_all
      · simp_all
      · rename_i x2 x1 b2 rest2 hno heq1 heq2
        injection heq1 with e1 e2
        subst e1; subst e2
        rfl
    · rw [decodeAux.eq_def]
      split
      · simp_all
      · simp_all
      · simp_all
      · simp_all
      · rename_i x2 x1 b2 rest2 hno heq1 heq2
        injection heq1 with e1 e2
        subst e1; subst e2
        rfl

/-- Inside a CSI sequence the loop consumes all leading ASCII bytes plus the
first non-ASCII byte if one remains, emits the single event the consumed
parameter string maps to, records the full escape sequence as raw span, and
resumes ordinary decoding on the leftover bytes. -/
theorem decodeAux_some (l : List Nat) :
    ∀ acc, decodeAux l (some acc)
      = ⟨csiMap (acc ++ csiTake l), 27 :: 91 :: (acc ++ csiTake l)⟩
          :: channel_data_to_terminal_codes (csiRest l) := by
  induction l with
  | nil =>
      intro acc
      simp [decodeAux, csiTake, csiRest, channel_data_to_terminal_codes]
  | cons b rest ih =>
      intro acc
      by_cases hb : b < 128
      · rw [show decodeAux (b :: rest) (some acc)
              = decodeAux rest (some (acc ++ [b])) by simp [decodeAux, hb]]
        rw [ih (acc ++ [b])]
        simp [csiTake, csiRest, hb]
      · rw [show decodeAux (b :: rest) (some acc)
              = ⟨csiMap (acc ++ [b]), 27 :: 91 :: (acc ++ [b])⟩ :: decodeAux rest none
            by simp [decodeAux, hb]]
        simp [csiTake, csiRest, hb, channel_data_to_terminal_codes]

/-- A chunk whose decoding avoids every bare ESC [ pair decodes bytewise:
the event list is the concatenation of each byte's own decoding, in input
order. -/
theorem decode_no_csi (data : List Nat) (h : noCsi data = true) :
    channel_data_to_terminal_codes data = (data.map decode_byte).flatten := by
  unfold channel_data_to_terminal_codes
  induction data with
  | nil => rfl
  | cons b rest ih =>
      rw [noCsi] at h
      simp only [Bool.and_eq_true, Bool.not_eq_true', beq_iff_eq] at h
      obtain ⟨h1, h2⟩ := h
      have hcsi : ¬(b = 27 ∧ rest.head? = some 91) := by
        intro hc
        rw [hc.1, hc.2] at h1
        simp at h1
      rw [decodeAux_cons_of_not_csi b rest hcsi, ih h2]
      simp

/-- Each byte decoded outside an escape sequence produces at most one event,
and any event it produces records exactly that byte as its raw span. -/
theorem decode_byte_shape (b : Nat) :
    (decode_byte b).length ≤ 1
    ∧ (∀ tc ∈ decode_byte b, tc.raw_bytes = [b]) := by
  unfold decode_byte
  split_ifs with h1 h2 h3 h4 h5 <;> simp_all

/-! ## Claim C1 -/

/-- Claim C1, corrected. The claim as frozen says the emitted event is
determined by the final consumed byte (65 gives ArrowUp, 66 ArrowDown, any
other final byte Unrecognized). The code instead matches the whole consumed
parameter string: this counterexample decodes [27,91,49,65], whose final
byte is 65, to a single Unrecognized event rather than ArrowUp, and decodes
[27,91,65,66] - where 65 would be the first CSI terminating byte - to a
single Unrecognized event spanning all four bytes. -/
theorem csi_decode_counterexample :
    channel_data_to_terminal_codes [27, 91, 49, 65] = [⟨none, [27, 91, 49, 65]⟩]
    ∧ ([27, 91, 49, 65] : List Nat).getLast? = some 65
    ∧ (⟨none, [27, 91, 49, 65]⟩ : TerminalCode) ≠ ⟨some AsciiCode.ArrowUp, [27, 91, 49, 65]⟩
    ∧ channel_data_to_terminal_codes [27, 91, 65, 66] = [⟨none, [27, 91, 65, 66]⟩] := by
  decide

/-- Claim C1, amended: when byte 27 immediately followed by byte 91 is read,
the decoder consumes the following ASCII bytes up to and including the first
non-ASCII byte (or to the end of the chunk) and emits one event determined
by the entire consumed parameter sequence: exactly [65] gives ArrowUp,
exactly [66] gives ArrowDown, and any other consumed sequence gives
Unrecognized, with the event's recorded raw span equal to the full escape
sequence; in particular decoding [27,91,65] yields exactly [ArrowUp] and
decoding [27,91,67] yields exactly [Unrecognized]. -/
theorem csi_decode_amended (rest : List Nat) :
    channel_data_to_terminal_codes (27 :: 91 :: rest)
      = ⟨csiMap (csiTake rest), 27 :: 91 :: csiTake rest⟩
          :: channel_data_to_terminal_codes (csiRest rest)
    ∧ (∀ cmd, csiMap cmd = some AsciiCode.ArrowUp ↔ cmd = [65])
    ∧ (∀ cmd, csiMap cmd = some AsciiCode.ArrowDown ↔ cmd = [66])
    ∧ channel_data_to_terminal_codes [27, 91, 65] = [⟨some AsciiCode.ArrowUp, [27, 91, 65]⟩]
    ∧ channel_data_to_terminal_codes [27, 91, 67] = [⟨none, [27, 91, 67]⟩] := by
  refine ⟨?_, ?_, ?_, by decide, by decide⟩
  · rw [show channel_data_to_terminal_codes (27 :: 91 :: rest)
          = decodeAux rest (some []) from rfl]
    rw [decodeAux_some rest []]
    simp
  · intro cmd
    unfold csiMap
    split_ifs with h1 h2 <;> simp_all
  · intro cmd
    unfold csiMap
    split_ifs with h1 h2 <;> simp_all

/-! ## Claim C7 -/

/-- Claim C7, corrected. The claim as frozen says decoding emits exactly one
event per input byte for chunks with no bare ESC [ pair. Control bytes other
than 3, 8 and 13 are dropped with no event: the chunk [0] contains no ESC [
pair, has one byte, and decodes to no event at all. -/
theorem decode_per_byte_counterexample :
    noCsi [0] = true
    ∧ channel_data_to_terminal_codes [0] = []
    ∧ ([0] : List Nat).length = 1
    ∧ (channel_data_to_terminal_codes [0]).length ≠ ([0] : List Nat).length := by
  decide

/-- Claim C7, amended: for all byte sequences containing no bare ESC [ pair,
decoding processes each byte independently and in input order, emitting at
most one event per byte - the whole event list is the concatenation of the
per-byte decodings, each emitted event recording exactly its own byte as raw
span. (Control bytes other than 3, 8 and 13 are consumed without emitting an
event, so the per-byte decoding is not injective.) -/
theorem decode_per_byte_amended (data : List Nat) (h : noCsi data = true) :
    channel_data_to_terminal_codes data = (data.map decode_byte).flatten
    ∧ (∀ b, (decode_byte b).length ≤ 1)
    ∧ (∀ b, ∀ tc ∈ decode_byte b, tc.raw_bytes = [b])
    ∧ (channel_data_to_terminal_codes data).length ≤ data.length :=
  ⟨decode_no_csi data h,
   fun b => (decode_byte_shape b).1,
   fun b => (decode_byte_shape b).2,
   by
    rw [decode_no_csi data h]
    clear h
    induction data with
    | nil => simp
    | cons b rest ih =>
        have hb := (decode_byte_shape b).1
        simp only [List.map_cons, List.flatten_cons, List.length_append, List.length_cons]
        omega⟩

/-- Concrete instantiation of the amended claim C7 at the chunk [13, 97]:
the hypothesis that the chunk contains no ESC [ pair is discharged by
evaluation. -/
theorem decode_per_byte_amended_witness :
    channel_data_to_terminal_codes [13, 97] = (([13, 97] : List Nat).map decode_byte).flatten
    ∧ (channel_data_to_terminal_codes [13, 97]).length ≤ ([13, 97] : List Nat).length :=
  ⟨(decode_per_byte_amended [13, 97] (by decide)).1,
   (decode_per_byte_amended [13, 97] (by decide)).2.2.2⟩

/-! ## Claim C2 -/

/-- Claim C2, confirmed: the background drain applies submitted commands
strictly in submission order - draining any two batches one after the other
equals draining their concatenation, so the outcome is independent of how
submission interleaves with the drain. Write only appends bytes to the
internal sink buffer (the transport receives nothing), Flush delivers the
whole accumulated buffer to the transport as one delivery and clears it, and
the command sequence Write a, Write b, Flush, Write c, Flush applied to a
fresh handle produces exactly the two deliveries a ++ b and then c. -/
theorem output_mux_ordered_flush (a b c : List Nat) :
    (AsyncWriter.worker
        [TerminalHandleMsg.Data a, TerminalHandleMsg.Data b, TerminalHandleMsg.Flush,
         TerminalHandleMsg.Data c, TerminalHandleMsg.Flush] ⟨[], []⟩).delivered
      = [a ++ b, c]
    ∧ (∀ batch1 batch2 : List TerminalHandleMsg, ∀ h : TerminalHandle,
        AsyncWriter.worker (batch1 ++ batch2) h
          = AsyncWriter.worker batch2 (AsyncWriter.worker batch1 h))
    ∧ (∀ (h : TerminalHandle) (buf : List Nat),
        (h.write buf).delivered = h.delivered ∧ (h.write buf).sink = h.sink ++ buf)
    ∧ (∀ h : TerminalHandle,
        (h.flush).delivered = h.delivered ++ [h.sink] ∧ (h.flush).sink = []) := by
  refine ⟨?_, ?_, ?_, ?_⟩
  · simp [AsyncWriter.worker, TerminalHandle.write, TerminalHandle.flush]
  · intro batch1 batch2 h
    simp [AsyncWriter.worker, List.foldl_append]
  · intro h buf
    exact ⟨rfl, rfl⟩
  · intro h
    exact ⟨rfl, rfl⟩

/-! ## Claim C9 -/

/-- Claim C9, confirmed: the relay call opened from the gallery is wrapped
in a fixed wall-clock timeout of 60 * 30 seconds, that is 30 minutes, and a
timeout outcome is not treated as an error - the result of the timed call is
bound to a wildcard and discarded, and docker_session returns normally to
its caller in every case, in particular when the budget has elapsed and the
timeout produced no result. -/
theorem relay_timeout_behavior (elapsed : Nat) (r : Except String Nat) :
    docker_session_timeout = 30 * 60
    ∧ docker_session elapsed r = Except.ok ()
    ∧ (docker_session_timeout < elapsed →
        timeout_run docker_session_timeout elapsed r = none
        ∧ docker_session elapsed r = Except.ok ()) := by
  refine ⟨rfl, rfl, ?_⟩
  intro h
  refine ⟨?_, rfl⟩
  unfold timeout_run
  rw [if_neg]
  omega

/-- Concrete instantiation of claim C9 one second past the budget: the
timed-out call yields no result and docker_session still returns
normally. -/
theorem relay_timeout_behavior_witness :
    timeout_run docker_session_timeout 1801 (Except.ok 0 : Except String Nat) = none
    ∧ docker_session 1801 (Except.ok 0 : Except String Nat) = Except.ok () :=
  (relay_timeout_behavior 1801 (Except.ok 0)).2.2 (by decide)

/-! ## Claim C4 -/

/-- Claim C4, corrected. The claim as frozen says the total line count is
the sum of each option's line count. The code adds one to that sum: for the
single one-line option "a" the sum of the line counts is 1, yet the computed
total is 2, and with terminal row height 10 the viewport height is 2 rather
than min 1 10 = 1. -/
theorem select_line_count_counterexample :
    ([strChars "a"].map option_line_count).sum = 1
    ∧ single_select_total_lines [strChars "a"] = 2
    ∧ single_select_total_lines [strChars "a"] ≠ ([strChars "a"].map option_line_count).sum
    ∧ single_select_box_rows [strChars "a"] 10 = 2
    ∧ single_select_box_rows [strChars "a"] 10
        ≠ min (([strChars "a"].map option_line_count).sum) 10 := by
  decide

/-- Claim C4, amended: for every options list, the scrollable single-select
computes the total line count as the sum of each option's line count plus
one, and its viewport height equals the minimum of that total line count and
the terminal row height (in particular it never exceeds the terminal row
height). -/
theorem select_line_count_amended (options : List (List Char)) (rh : Nat) :
    single_select_total_lines options = (options.map option_line_count).sum + 1
    ∧ (∀ o, single_select_total_lines (o :: options)
        = option_line_count o + single_select_total_lines options)
    ∧ single_select_box_rows options rh = min (single_select_total_lines options) rh
    ∧ single_select_box_rows options rh ≤ rh := by
  refine ⟨rfl, ?_, rfl, Nat.min_le_right _ _⟩
  intro o
  simp [single_select_total_lines, option_line_count]
  omega

/-! ## Claims C5 and C10: the single-select input loop -/

/-- The case-split definition of usize subtraction agrees with reduction of
the mathematical difference modulo 2^64 on the usize value range. -/
theorem usize_sub_mod (a b : Nat) (ha : a < USIZE) (hb : b ≤ USIZE) :
    usize_sub a b = (a + USIZE - b) % USIZE := by
  have hU : 0 < USIZE := by decide
  unfold usize_sub
  split_ifs with h
  · rw [show a + USIZE - b = (a - b) + USIZE by omega, Nat.add_mod_right]
    exact (Nat.mod_eq_of_lt (by omega)).symm
  · rw [show a + USIZE - b = USIZE - (b - a) by omega]
    exact (Nat.mod_eq_of_lt (by omega)).symm

/-- Usize subtraction of one agrees with truncated subtraction whenever the
minuend is positive. -/
theorem usize_sub_one (n : Nat) (h1 : 1 ≤ n) :
    usize_sub n 1 = n - 1 := by
  unfold usize_sub
  rw [if_pos h1]

/-- Any index the select loop can return, starting inside the valid range of
a non-empty options list, is again inside the valid range. -/
theorem single_select_loop_lt (n : Nat) (hn : 0 < n) :
    ∀ (es : List (Option AsciiCode)) (i r : Nat), i < n →
      single_select_loop n i es = some r → r < n := by
  intro es
  induction es with
  | nil =>
      intro i r hi h
      rw [show single_select_loop n i [] = some i from rfl] at h
      injection h with h2
      omega
  | cons e es ih =>
      intro i r hi h
      rcases e with _ | code
      · rw [show single_select_loop n i (none :: es) = single_select_loop n i es
              from rfl] at h
        exact ih i r hi h
      · cases code with
        | Enter =>
            rw [show single_select_loop n i (some AsciiCode.Enter :: es) = some i
                  from rfl] at h
            injection h with h2
            omega
        | ArrowUp =>
            rw [show single_select_loop n i (some AsciiCode.ArrowUp :: es)
                  = single_select_loop n (i - 1) es from rfl] at h
            exact ih (i - 1) r (by omega) h
        | ArrowDown =>
            rw [show single_select_loop n i (some AsciiCode.ArrowDown :: es)
                  = single_select_loop n (if i < usize_sub n 1 then i + 1 else i) es
                from rfl] at h
            rw [usize_sub_one n hn] at h
            by_cases hlt : i < n - 1
            · rw [if_pos hlt] at h
              exact ih (i + 1) r (by omega) h
            · rw [if_neg hlt] at h
              exact ih i r hi h
        | EoT =>
            rw [show single_select_loop n i (some AsciiCode.EoT :: es) = none
                  from rfl] at h
            exact Option.noConfusion h
        | Backspace =>
            rw [show single_select_loop n i (some AsciiCode.Backspace :: es)
                  = single_select_loop n i es from rfl] at h
            exact ih i r hi h
        | Char c =>
            rw [show single_select_loop n i (some (AsciiCode.Char c) :: es)
                  = single_select_loop n i es from rfl] at h
            exact ih i r hi h

/-- Claim C5, confirmed: for a non-empty options list (of usize length) the
single-select loop keeps the selected index inside the valid range across
every received event - ArrowUp decrements with a floor of 0 (saturating
subtraction), ArrowDown increments with a ceiling of the last index, every
event other than Enter, EoT, ArrowUp and ArrowDown leaves the index
unchanged, Enter commits and returns the current index, and any returned
index is a valid index into the options list. -/
theorem select_index_invariant (n i : Nat) (hn : 0 < n) (hi : i < n) :
    (∀ es, single_select_loop n i (some AsciiCode.Enter :: es) = some i)
    ∧ (∀ es, single_select_loop n i (some AsciiCode.ArrowUp :: es)
        = single_select_loop n (i - 1) es)
    ∧ (∀ es, single_select_loop n i (some AsciiCode.ArrowDown :: es)
        = single_select_loop n (min (i + 1) (n - 1)) es)
    ∧ (∀ e es, e ≠ some AsciiCode.Enter → e ≠ some AsciiCode.EoT →
        e ≠ some AsciiCode.ArrowUp → e ≠ some AsciiCode.ArrowDown →
        single_select_loop n i (e :: es) = single_select_loop n i es)
    ∧ (∀ es r, single_select_loop n i es = some r → r < n) := by
  refine ⟨fun es => rfl, fun es => rfl, ?_, ?_, ?_⟩
  · intro es
    rw [show single_select_loop n i (some AsciiCode.ArrowDown :: es)
          = single_select_loop n (if i < usize_sub n 1 then i + 1 else i) es from rfl]
    rw [usize_sub_one n hn]
    congr 1
    rw [Nat.min_def]
    split_ifs <;> omega
  · intro e es h1 h2 h3 h4
    rcases e with _ | code
    · rfl
    · cases code with
      | Enter => exact absurd rfl h1
      | EoT => exact absurd rfl h2
      | ArrowUp => exact absurd rfl h3
      | ArrowDown => exact absurd rfl h4
      | Backspace => rfl
      | Char c => rfl
  · intro es r
    exact single_select_loop_lt n hn es i r hi

/-- Concrete instantiation of claim C5 with two options, starting at index
0: pressing ArrowDown then Enter returns index 1, which is a valid index. -/
theorem select_index_invariant_witness :
    single_select_loop 2 0 [some AsciiCode.ArrowDown, some AsciiCode.Enter] = some 1
    ∧ 1 < 2 :=
  ⟨by decide,
   (select_index_invariant 2 0 (by decide) (by decide)).2.2.2.2
     [some AsciiCode.ArrowDown, some AsciiCode.Enter] 1 (by decide)⟩

/-- Claim C10, confirmed: on an empty options list the select loop is
unsafe. The guard of ArrowDown computes options.len() - 1 on the unsigned
length 0, which underflows (a debug build panics; a release build wraps
around to 2^64 - 1, after which a single ArrowDown moves the index to 1,
already out of range); an immediate Enter returns index 0, which is not a
valid index into the empty list, and the gallery's subsequent lookup of that
index in the fetched submissions list misses (the .expect on it panics). -/
theorem select_empty_options_unsafe :
    usize_sub_underflows ([] : List (List Char)).length 1 = true
    ∧ usize_sub ([] : List (List Char)).length 1 = USIZE - 1
    ∧ single_select_loop ([] : List (List Char)).length 0 [some AsciiCode.Enter] = some 0
    ∧ ¬(0 < ([] : List (List Char)).length)
    ∧ gallery_lookup ([] : List (List Char)) 0 = none
    ∧ single_select_loop 0 0 [some AsciiCode.ArrowDown, some AsciiCode.Enter] = some 1 := by
  decide



/-! ## Claim C6 -/

/-- Under a required prompt, an Enter with empty entered text only loops:
any finite budget of such events produces no return value. -/
theorem prompt_loop_only_empty_enters (k : Nat) :
    prompt_loop true [] (List.replicate k (some AsciiCode.Enter)) = none := by
  induction k with
  | zero => rfl
  | succ k ih =>
      rw [List.replicate_succ]
      rw [show prompt_loop true [] (some AsciiCode.Enter
            :: List.replicate k (some AsciiCode.Enter))
          = prompt_loop true [] (List.replicate k (some AsciiCode.Enter)) from rfl]
      exact ih

/-- A required prompt only ever returns non-empty entered text, whatever the
text state it starts from. -/
theorem prompt_loop_required_nonempty (es : List (Option AsciiCode)) :
    ∀ (input s : List Char), prompt_loop true input es = some s → s ≠ [] := by
  induction es with
  | nil =>
      intro input s h
      exact Option.noConfusion h
  | cons e es ih =>
      intro input s h
      rcases e with _ | code
      · exact ih input s h
      · cases code with
        | Enter =>
            by_cases hin : input.isEmpty
            · rw [show prompt_loop true input (some AsciiCode.Enter :: es)
                    = if true && input.isEmpty then prompt_loop true input es
                      else some input from rfl, hin] at h
              simp only [Bool.and_true, if_pos] at h
              exact ih input s h
            · rw [show prompt_loop true input (some AsciiCode.Enter :: es)
                    = if true && input.isEmpty then prompt_loop true input es
                      else some input from rfl] at h
              rw [Bool.eq_false_iff.mpr hin] at h
              simp only [Bool.and_false, if_neg, Bool.false_eq_true,
                not_false_iff] at h
              injection h with h2
              subst h2
              intro hnil
              subst hnil
              exact hin rfl
        | Backspace => exact ih input.dropLast s h
        | ArrowUp => exact ih input s h
        | ArrowDown => exact ih input s h
        | EoT => exact Option.noConfusion h
        | Char c =>
            exact ih (if c < 128 then input ++ [Char.ofNat c] else input) s h

/-- Claim C6, confirmed: a required prompt returns only with non-empty
entered text - on Enter with empty text it keeps reading, so under an input
stream consisting only of Enter events with empty entered text it never
returns: for every finite number of such events no return value is
produced. -/
theorem prompt_required_nonempty :
    (∀ k, prompt_loop true [] (List.replicate k (some AsciiCode.Enter)) = none)
    ∧ (∀ es s, prompt_loop true [] es = some s → s ≠ []) :=
  ⟨prompt_loop_only_empty_enters,
   fun es s h => prompt_loop_required_nonempty es [] s h⟩

/-- Concrete instantiation of claim C6: three empty Enters produce no return
value, and the value returned after typing one character is non-empty. -/
theorem prompt_required_nonempty_witness :
    prompt_loop true [] (List.replicate 3 (some AsciiCode.Enter)) = none
    ∧ [Char.ofNat 97] ≠ ([] : List Char) :=
  ⟨prompt_required_nonempty.1 3,
   prompt_required_nonempty.2 [some (AsciiCode.Char 97), some AsciiCode.Enter]
     [Char.ofNat 97] (by decide)⟩

/-! ## Claim C8 -/

/-- Claim C8, corrected. The claim as frozen says a multi-byte UTF-8
character arriving as consecutive PrintableByte events is appended to the
entered text. The code validates each byte on its own with
str::from_utf8(&[c]), which rejects every byte of a multi-byte character:
feeding the two UTF-8 bytes 195, 169 of the two-byte character with code
point 233 and then Enter returns empty entered text, not that character. -/
theorem prompt_utf8_counterexample :
    prompt_loop false []
        [some (AsciiCode.Char 195), some (AsciiCode.Char 169), some AsciiCode.Enter]
      = some []
    ∧ strChars "\u00e9" ≠ ([] : List Char) := by
  decide

/-- Claim C8, amended: in the line prompt, Backspace removes the last
character of the entered text, and a printable byte is appended exactly when
it is on its own valid UTF-8, that is when it is below 128 (it is then the
corresponding one-byte character); bytes 128 and above are silently ignored
at the point of assembly, so a multi-byte UTF-8 character arriving as
consecutive PrintableByte events is dropped entirely rather than
appended. -/
theorem prompt_input_assembly_amended (required : Bool) (input : List Char)
    (es : List (Option AsciiCode)) (c : Nat) :
    prompt_loop required input (some AsciiCode.Backspace :: es)
      = prompt_loop required input.dropLast es
    ∧ (∀ ch : Char, (input ++ [ch]).dropLast = input)
    ∧ (c < 128 → prompt_loop required input (some (AsciiCode.Char c) :: es)
        = prompt_loop required (input ++ [Char.ofNat c]) es)
    ∧ (128 ≤ c → prompt_loop required input (some (AsciiCode.Char c) :: es)
        = prompt_loop required input es) := by
  refine ⟨rfl, fun ch => List.dropLast_concat, ?_, ?_⟩
  · intro h
    rw [show prompt_loop required input (some (AsciiCode.Char c) :: es)
          = prompt_loop required
              (if c < 128 then input ++ [Char.ofNat c] else input) es from rfl]
    rw [if_pos h]
  · intro h
    rw [show prompt_loop required input (some (AsciiCode.Char c) :: es)
          = prompt_loop required
              (if c < 128 then input ++ [Char.ofNat c] else input) es from rfl]
    rw [if_neg (by omega)]

/-- Concrete instantiation of the amended claim C8: the ASCII byte 97 is
appended, the non-ASCII byte 200 is dropped. -/
theorem prompt_input_assembly_amended_witness :
    prompt_loop false [] [some (AsciiCode.Char 97), some AsciiCode.Enter]
      = prompt_loop false ([] ++ [Char.ofNat 97]) [some AsciiCode.Enter]
    ∧ prompt_loop false [] [some (AsciiCode.Char 200), some AsciiCode.Enter]
      = prompt_loop false [] [some AsciiCode.Enter] :=
  ⟨(prompt_input_assembly_amended false [] [some AsciiCode.Enter] 97).2.2.1 (by decide),
   (prompt_input_assembly_amended false [] [some AsciiCode.Enter] 200).2.2.2 (by decide)⟩


/-! ## Claim C3: the fixed-width wrap -/

/-- Appending a word to a line appends the word and one trailing space to
the line's string contents. -/
theorem renderLine_concat (ws : List (List Char)) (w : List Char) :
    renderLine (ws ++ [w]) = renderLine ws ++ (w ++ [' ']) := by
  simp [renderLine]

/-- The word loop never loses, splits or reorders words: completed lines
plus the current line always hold exactly the words processed so far. -/
theorem wrap_foldl_words (width : Nat) (ws : List (List Char)) :
    ∀ done cur,
      (ws.foldl (wrapStep width) (done, cur)).1.flatten
          ++ (ws.foldl (wrapStep width) (done, cur)).2
        = done.flatten ++ cur ++ ws := by
  induction ws with
  | nil => intro done cur; simp
  | cons w ws ih =>
      intro done cur
      rw [List.foldl_cons]
      by_cases h : (renderLine cur).length + w.length > width
      · rw [show wrapStep width (done, cur) w = (done ++ [cur], [w])
              from by simp [wrapStep, h]]
        rw [ih]
        simp
      · rw [show wrapStep width (done, cur) w = (done, cur ++ [w])
              from by simp [wrapStep, h]]
        rw [ih]
        simp

/-- The word loop preserves acceptability of every line it has produced and
of the line it is building. -/
theorem wrap_foldl_ok (width : Nat) (ws : List (List Char)) :
    ∀ done cur, (∀ l ∈ done, wrapLineOk width l) → wrapLineOk width cur →
      ∀ l ∈ (ws.foldl (wrapStep width) (done, cur)).1
              ++ [(ws.foldl (wrapStep width) (done, cur)).2],
        wrapLineOk width l := by
  induction ws with
  | nil =>
      intro done cur hdone hcur l hl
      simp only [List.foldl_nil] at hl
      rcases List.mem_append.mp hl with hd | hc
      · exact hdone l hd
      · rw [List.mem_singleton.mp hc]
        exact hcur
  | cons w ws ih =>
      intro done cur hdone hcur
      rw [List.foldl_cons]
      by_cases h : (renderLine cur).length + w.length > width
      · rw [show wrapStep width (done, cur) w = (done ++ [cur], [w])
              from by simp [wrapStep, h]]
        apply ih
        · intro l hl
          rcases List.mem_append.mp hl with hd | hc
          · exact hdone l hd
          · rw [List.mem_singleton.mp hc]
            exact hcur
        · by_cases hw : w.length ≤ width
          · left
            rw [show ([w] : List (List Char)) = [] ++ [w] from rfl, renderLine_concat]
            simp [renderLine]
            omega
          · exact Or.inr ⟨w, rfl, by omega⟩
      · rw [show wrapStep width (done, cur) w = (done, cur ++ [w])
              from by simp [wrapStep, h]]
        apply ih _ _ hdone
        left
        rw [renderLine_concat]
        simp only [List.length_append, List.length_cons, List.length_nil]
        omega

/-- The lines produced by the fixed-width wrap hold exactly the input words,
in order: no word is split, dropped or duplicated. -/
theorem wrapWords_flatten (width : Nat) (words : List (List Char)) :
    (wrapWords width words).flatten = words := by
  show ((words.foldl (wrapStep width) ([], [])).1
      ++ [(words.foldl (wrapStep width) ([], [])).2]).flatten = words
  rw [List.flatten_append]
  simp only [List.flatten_cons, List.flatten_nil, List.append_nil]
  have h := wrap_foldl_words width words [] []
  simpa using h

/-- Every line produced by the fixed-width wrap is acceptable. -/
theorem wrapWords_ok (width : Nat) (words : List (List Char)) :
    ∀ l ∈ wrapWords width words, wrapLineOk width l := by
  intro l hl
  refine wrap_foldl_ok width words [] [] (fun l2 hl2 => absurd hl2 (List.not_mem_nil l2))
    (Or.inl (by simp [renderLine])) l ?_
  exact hl

/-- Claim C3, corrected. The claim as frozen says wrapping "aa bb cc" at
width 5 yields exactly the lines "aa bb" and "cc", and that no line exceeds
width unless a single word does. The code appends one space after every
word, so the produced string is "aa bb \r\ncc \r\n": its first line
"aa bb " is six characters long, exceeding width 5 although every input
word fits in it, and a trailing empty piece follows the last "\r\n". -/
theorem fixed_width_counterexample :
    fixed_width (strChars "aa bb cc") 5 = strChars "aa bb \r\ncc \r\n"
    ∧ fixed_width (strChars "aa bb cc") 5 ≠ strChars "aa bb\r\ncc"
    ∧ fixed_width (strChars "aa bb cc") 5 ≠ strChars "aa bb\r\ncc\r\n"
    ∧ splitCRLF (fixed_width (strChars "aa bb cc") 5)
        = [strChars "aa bb ", strChars "cc ", []]
    ∧ 5 < (strChars "aa bb ").length
    ∧ (strChars "aa").length ≤ 5
    ∧ (strChars "bb").length ≤ 5
    ∧ (strChars "cc").length ≤ 5 := by
  decide

/-- Claim C3, amended: for every word list and width, the fixed-width wrap
produces lines that never split, drop or reorder a word (their words
concatenate back to the input), and each line - which carries one trailing
space after every word - never exceeds width + 1 characters unless it is a
single word itself exceeding width, that word then occupying its own line
with only a trailing space appended; wrapping "aa bb cc" at width 5 yields
"aa bb \r\ncc \r\n", that is the lines "aa bb " and "cc ". -/
theorem fixed_width_amended (width : Nat) (words : List (List Char)) :
    (wrapWords width words).flatten = words
    ∧ (∀ l ∈ wrapWords width words,
        (renderLine l).length ≤ width + 1 ∨ ∃ w, l = [w] ∧ width < w.length)
    ∧ fixed_width (strChars "aa bb cc") 5 = strChars "aa bb \r\ncc \r\n" :=
  ⟨wrapWords_flatten width words, fun l hl => wrapWords_ok width words l hl, by decide⟩

/-- Concrete instantiation of the amended claim C3 on the words of
"aa bb cc" at width 5, discharging the line-membership hypothesis on the
produced line holding "cc". -/
theorem fixed_width_amended_witness :
    (wrapWords 5 [strChars "aa", strChars "bb", strChars "cc"]).flatten
      = [strChars "aa", strChars "bb", strChars "cc"]
    ∧ ((renderLine [strChars "cc"]).length ≤ 5 + 1
        ∨ ∃ w, [strChars "cc"] = [w] ∧ 5 < w.length) :=
  ⟨(fixed_width_amended 5 [strChars "aa", strChars "bb", strChars "cc"]).1,
   (fixed_width_amended 5 [strChars "aa", strChars "bb", strChars "cc"]).2.1
     [strChars "cc"] (by decide)⟩
